import Mathlib

/- Shallow embedding of the parallel block executor
   (aptos-move/block-executor/src/executor.rs) and of the collaborating
   components it drives (multi-version data store, read descriptors,
   scheduler tasks).  Pure control flow of executor.rs is transcribed
   directly; components whose code lives in sibling crates are modelled
   from the specification and marked as such. -/

namespace BlockExec

/-- Modelled from the spec: a delta operation over a u128 register, two
parameters (op in Add/Sub, arg) and a saturation limit (mvhashmap /
aggregator crates, not under src/). -/
structure DeltaOp where
  isAdd : Bool
  arg : Nat
  limit : Nat
deriving DecidableEq

/-- Modelled from the spec: delta-on-delta composition produces a combined
delta; the precise arithmetic is a signed sum saturating at the limit of
the later delta. -/
def DeltaOp.compose (d1 d2 : DeltaOp) : DeltaOp :=
  let s : Int := (if d1.isAdd then (d1.arg : Int) else -(d1.arg : Int))
    + (if d2.isAdd then (d2.arg : Int) else -(d2.arg : Int))
  ⟨decide (0 ≤ s), min s.natAbs d2.limit, d2.limit⟩

/-- Modelled from the spec: an MVDS per-key entry holds either a
Write(incarnation, value) or a Delta. -/
inductive EntryCell (V : Type) where
  | write (incarnation : Nat) (value : V)
  | delta (d : DeltaOp)
deriving DecidableEq

/-- Modelled from the spec: an MVDS entry carries its cell and the
Estimate flag (set while the producer is being re-executed). -/
structure Entry (V : Type) where
  cell : EntryCell V
  estimate : Bool
deriving DecidableEq

/-- Modelled from the spec: the multi-version data store (mvhashmap crate,
not under src/): per key, a map from transaction index to entry. -/
def MVDS (K V : Type) : Type := K → Nat → Option (Entry V)

variable {K V H E T : Type}

/-- Modelled from the spec: add_write inserts or replaces the entry at
index ver.1 with Write(ver.2, v) and clears any Estimate flag. -/
def MVDS.addWrite [DecidableEq K] (m : MVDS K V) (k : K) (ver : Nat × Nat) (v : V) :
    MVDS K V :=
  fun k2 i2 => if k2 = k ∧ i2 = ver.1 then some ⟨.write ver.2 v, false⟩ else m k2 i2

/-- Modelled from the spec: add_delta inserts a Delta at index i, or
composes with an existing (non-Estimate) Delta at i via delta-on-delta. -/
def MVDS.addDelta [DecidableEq K] (m : MVDS K V) (k : K) (i : Nat) (d : DeltaOp) :
    MVDS K V :=
  fun k2 i2 =>
    if k2 = k ∧ i2 = i then
      some ⟨.delta (match m k i with
        | some ⟨.delta d0, false⟩ => d0.compose d
        | _ => d), false⟩
    else m k2 i2

/-- Modelled from the spec: delete removes the entry at index i. -/
def MVDS.delete [DecidableEq K] (m : MVDS K V) (k : K) (i : Nat) : MVDS K V :=
  fun k2 i2 => if k2 = k ∧ i2 = i then none else m k2 i2

/-- Modelled from the spec: mark_estimate sets the Estimate flag on the
entry at index i. -/
def MVDS.markEstimate [DecidableEq K] (m : MVDS K V) (k : K) (i : Nat) : MVDS K V :=
  fun k2 i2 =>
    if k2 = k ∧ i2 = i then (m k i).map (fun e => ⟨e.cell, true⟩) else m k2 i2

/-- The outcome of MVDS.read(k, i): the Ok variants Version and Resolved
and the error variants Dependency, Unresolved, NotFound and
DeltaApplicationFailure (mvhashmap crate interface, as consumed by
executor.rs). -/
inductive ReadOutcome (V : Type) where
  | version (ver : Nat × Nat) (value : V)
  | resolved (value : V)
  | dependency (j : Nat)
  | unresolved (d : DeltaOp)
  | notFound
  | deltaApplicationFailure
deriving DecidableEq

/-- Modelled from the spec: the kind recorded in a ReadDescriptor by the
read view (txn_last_input_output crate, not under src/). -/
inductive ReadKind (H : Type) where
  | version (ver : Nat × Nat)
  | resolved (h : H)
  | storage
  | unresolvedDelta (d : DeltaOp)
  | deltaFailure
deriving DecidableEq

/-- Modelled from the spec: a recorded read descriptor: the key read and
the kind of result observed. -/
structure ReadDescriptor (K H : Type) where
  path : K
  kind : ReadKind H
deriving DecidableEq

/-- Modelled from the spec: validate_version succeeds iff the descriptor
recorded Version with the same version tag. -/
def ReadDescriptor.validateVersion (r : ReadDescriptor K H) (ver : Nat × Nat) : Bool :=
  match r.kind with
  | .version v => decide (v = ver)
  | _ => false

/-- Modelled from the spec: validate_resolved succeeds iff the descriptor
recorded Resolved with the hash of the freshly resolved value. -/
def ReadDescriptor.validateResolved [DecidableEq H] (hash : V → H)
    (r : ReadDescriptor K H) (value : V) : Bool :=
  match r.kind with
  | .resolved h => decide (hash value = h)
  | _ => false

/-- Modelled from the spec: validate_unresolved succeeds iff the
descriptor recorded UnresolvedDelta with the same accumulated delta. -/
def ReadDescriptor.validateUnresolved (r : ReadDescriptor K H) (d : DeltaOp) : Bool :=
  match r.kind with
  | .unresolvedDelta d0 => decide (d0 = d)
  | _ => false

/-- Modelled from the spec: validate_storage succeeds iff the descriptor
recorded Storage (the read went to the base view). -/
def ReadDescriptor.validateStorage (r : ReadDescriptor K H) : Bool :=
  match r.kind with
  | .storage => true
  | _ => false

/-- Modelled from the spec: validate_delta_application_failure succeeds
iff the descriptor recorded DeltaFailure. -/
def ReadDescriptor.validateDeltaFail (r : ReadDescriptor K H) : Bool :=
  match r.kind with
  | .deltaFailure => true
  | _ => false

/-- The per-descriptor check of BlockExecutor::validate (executor.rs,
match on the fresh read result): Version and Resolved dispatch to the
descriptor validators, Dependency always fails, Unresolved, NotFound and
DeltaApplicationFailure dispatch to the corresponding validators. -/
def descriptorCheck [DecidableEq H] (hash : V → H) (r : ReadDescriptor K H)
    (res : ReadOutcome V) : Bool :=
  match res with
  | .version ver _ => r.validateVersion ver
  | .resolved v => r.validateResolved hash v
  | .dependency _ => false
  | .unresolved d => r.validateUnresolved d
  | .notFound => r.validateStorage
  | .deltaApplicationFailure => r.validateDeltaFail

/-- The read-set validity computation of BlockExecutor::validate: all
recorded descriptors pass the per-descriptor check against a fresh read
of their key. -/
def readSetValid [DecidableEq H] (hash : V → H) (rs : List (ReadDescriptor K H))
    (readFn : K → ReadOutcome V) : Bool :=
  rs.all fun r => descriptorCheck hash r (readFn r.path)

/-- The validation rules as the spec states them, dispatching on the
descriptor kind first: Version matches Version with equal tag, Resolved
matches Resolved with equal hash, UnresolvedDelta matches Unresolved with
equal delta, Storage matches NotFound, DeltaFailure matches
DeltaApplicationFailure, and any other combination fails. -/
def specRuleMatches [DecidableEq H] (hash : V → H) (r : ReadDescriptor K H)
    (res : ReadOutcome V) : Bool :=
  match r.kind, res with
  | .version v, .version v2 _ => decide (v = v2)
  | .resolved h, .resolved v2 => decide (hash v2 = h)
  | .unresolvedDelta d, .unresolved d2 => decide (d = d2)
  | .storage, .notFound => true
  | .deltaFailure, .deltaApplicationFailure => true
  | _, _ => false

/-- The output of one transaction execution as executor.rs consumes it:
get_writes and get_deltas (TransactionOutput interface). -/
structure TOutput (K V : Type) where
  writes : List (K × V)
  deltas : List (K × DeltaOp)
deriving DecidableEq

/-- ExecutionStatus of the VM / the recorded cell: Success, SkipRest or
Abort (task.rs interface, as consumed by executor.rs). -/
inductive ExecutionStatus (O Err : Type) where
  | success (output : O)
  | skipRest (output : O)
  | abort (err : Err)
deriving DecidableEq

/-- Modelled from the spec: the error taxonomy of the block executor
(errors.rs, not under src/): UserError(e) and ModulePathReadWrite. -/
inductive BlockError (E : Type) where
  | userError (e : E)
  | modulePathReadWrite
deriving DecidableEq

/-- One write or one delta of an output, in the order executor.rs applies
them (all writes first, then all deltas). -/
inductive UpdateKind (V : Type) where
  | writeVal (v : V)
  | deltaVal (d : DeltaOp)
deriving DecidableEq

/-- The combined update list of an output: writes first, then deltas,
exactly the order of the two loops in apply_updates (executor.rs). -/
def updatesOf (out : TOutput K V) : List (K × UpdateKind V) :=
  out.writes.map (fun p => (p.1, .writeVal p.2)) ++
    out.deltas.map (fun p => (p.1, .deltaVal p.2))

/-- The mutable state threaded through apply_updates (executor.rs): the
shrinking previous modified-key set, the updates_outside flag and the
data cache. -/
structure ApplyState (K V : Type) where
  prev : List K
  outside : Bool
  mvds : MVDS K V

/-- One step of apply_updates (executor.rs): if prev.remove(k) fails, set
updates_outside; then add_write at the version or add_delta at the
index. -/
def applyOne [DecidableEq K] (ver : Nat × Nat) (st : ApplyState K V)
    (u : K × UpdateKind V) : ApplyState K V :=
  let st2 := if u.1 ∈ st.prev then { st with prev := st.prev.erase u.1 }
             else { st with outside := true }
  match u.2 with
  | .writeVal v => { st2 with mvds := st2.mvds.addWrite u.1 ver v }
  | .deltaVal d => { st2 with mvds := st2.mvds.addDelta u.1 ver.1 d }

/-- apply_updates of executor.rs: fold the output's writes then deltas
over the apply state. -/
def applyUpdates [DecidableEq K] (ver : Nat × Nat) (out : TOutput K V)
    (st : ApplyState K V) : ApplyState K V :=
  (updatesOf out).foldl (applyOne ver) st

/-- What BlockExecutor::execute leaves behind: the data cache, the
updates_outside flag passed to finish_execution, and the recorded
status. -/
structure ExecResult (K V E : Type) where
  mvds : MVDS K V
  updatesOutside : Bool
  recorded : ExecutionStatus (TOutput K V) (BlockError E)

/-- BlockExecutor::execute (executor.rs): on Success or SkipRest apply
the output's writes and deltas (tracking updates_outside against the
previous modified keys); on Abort wrap the error as UserError and apply
nothing; afterwards delete every key still remaining in the previous
modified-key set from the data cache at this index. -/
def executeTask [DecidableEq K] (ver : Nat × Nat)
    (execResult : ExecutionStatus (TOutput K V) E)
    (prevModifiedKeys : List K) (mvds : MVDS K V) : ExecResult K V E :=
  let applied :
      ApplyState K V × ExecutionStatus (TOutput K V) (BlockError E) :=
    match execResult with
    | .success output =>
        (applyUpdates ver output ⟨prevModifiedKeys, false, mvds⟩, .success output)
    | .skipRest output =>
        (applyUpdates ver output ⟨prevModifiedKeys, false, mvds⟩, .skipRest output)
    | .abort e => (⟨prevModifiedKeys, false, mvds⟩, .abort (.userError e))
  ⟨applied.1.prev.foldl (fun m k => m.delete k ver.1) applied.1.mvds,
    applied.1.outside, applied.2⟩

/-- The scheduler task variants handed to workers (scheduler.rs
interface): ValidationTask, ExecutionTask with an optional
dependency-resolution hook, NoTask and Done. -/
inductive STask where
  | validationT (ver : Nat × Nat)
  | executionT (ver : Nat × Nat) (hook : Option Unit)
  | noTask
  | done
deriving DecidableEq

/-- BlockExecutor::validate (executor.rs): check the recorded read set
against fresh reads; if invalid and try_abort(i, n) succeeds, mark the
latest modified keys as Estimate in the data cache and finish_abort
(which, modelled from the spec, returns the execution task for the next
incarnation); otherwise return NoTask and leave the cache alone. -/
def validateTask [DecidableEq K] [DecidableEq H] (hash : V → H)
    (readSet : List (ReadDescriptor K H)) (readFn : K → ReadOutcome V)
    (modifiedKeys : List K) (ver : Nat × Nat) (tryAbortOk : Bool)
    (mvds : MVDS K V) : STask × MVDS K V :=
  let valid := readSetValid hash readSet readFn
  let aborted := !valid && tryAbortOk
  if aborted then
    (.executionT (ver.1, ver.2 + 1) none,
      modifiedKeys.foldl (fun m k => m.markEstimate k ver.1) mvds)
  else (.noTask, mvds)

/-- The modified-key set an execution records: the keys of its writes and
deltas for Success and SkipRest, empty for Abort. -/
def statusModifiedKeys : ExecutionStatus (TOutput K V) E → List K
  | .success o => (updatesOf o).map Prod.fst
  | .skipRest o => (updatesOf o).map Prod.fst
  | .abort _ => []

/-- The one-shot dependency-resolution hook: the mutex-protected flag and
the number of notify_one calls observed by its single waiter. -/
structure CondSignal where
  flag : Bool
  notified : Nat
deriving DecidableEq

/-- The shared state a worker step touches: the data cache, the hook, and
the per-transaction last-input-output cells (modified keys, read sets,
recorded statuses). -/
structure SharedState (K V H E : Type) where
  mvds : MVDS K V
  cv : CondSignal
  modifiedKeys : Nat → List K
  readSets : Nat → List (ReadDescriptor K H)
  recorded : Nat → Option (ExecutionStatus (TOutput K V) (BlockError E))

/-- One iteration of the worker loop of work_task_with_scope
(executor.rs): a ValidationTask runs validate, an ExecutionTask without a
hook runs execute and records the cell, an ExecutionTask with a hook only
sets the hook's flag, notifies its single waiter once and continues with
NoTask, NoTask asks the scheduler for the next task, Done stops.
vmResult, tryAbortOk, readFn and schedNext stand for the deterministic
collaborators consulted during the step. -/
def workStep [DecidableEq K] [DecidableEq H] (hash : V → H)
    (readFn : K → ReadOutcome V)
    (vmResult : Nat × Nat → ExecutionStatus (TOutput K V) E)
    (tryAbortOk : Bool) (schedNext : STask)
    (task : STask) (st : SharedState K V H E) : STask × SharedState K V H E :=
  match task with
  | .validationT ver =>
      let r := validateTask hash (st.readSets ver.1) readFn
        (st.modifiedKeys ver.1) ver tryAbortOk st.mvds
      (r.1, { st with mvds := r.2 })
  | .executionT ver none =>
      let r := executeTask ver (vmResult ver) (st.modifiedKeys ver.1) st.mvds
      (schedNext,
        { st with
            mvds := r.mvds,
            modifiedKeys := fun j =>
              if j = ver.1 then statusModifiedKeys (vmResult ver)
              else st.modifiedKeys j,
            recorded := fun j =>
              if j = ver.1 then some r.recorded else st.recorded j })
  | .executionT _ (some _) =>
      (.noTask, { st with cv := ⟨true, st.cv.notified + 1⟩ })
  | .noTask => (schedNext, st)
  | .done => (.done, st)

/-- The output-collection loop of execute_transactions_parallel
(executor.rs): walk the recorded statuses in index order, keep Success
outputs, keep a SkipRest output and stop, stop with the error on Abort.
The first component is the error (if any), the second the kept
outputs. -/
def collectOutputs (statuses : Nat → ExecutionStatus (TOutput K V) (BlockError E)) :
    Nat → Nat → List (TOutput K V) →
    Option (BlockError E) × List (TOutput K V)
  | 0, _, acc => (none, acc)
  | fuel + 1, idx, acc =>
    match statuses idx with
    | .success t => collectOutputs statuses fuel (idx + 1) (acc ++ [t])
    | .skipRest t => (none, acc ++ [t])
    | .abort e => (some e, acc)

/-- Vec::resize_with(n, skip): truncate to n elements or pad with the
skip-output sentinel up to n. -/
def resizeTo (n : Nat) (skip : TOutput K V) (l : List (TOutput K V)) :
    List (TOutput K V) :=
  l.take n ++ List.replicate (n - l.length) skip

/-- execute_transactions_parallel (executor.rs), after the worker phase:
an empty block returns empty results immediately; if
module_publishing_may_race (the race oracle) the result is
Err(ModulePathReadWrite); otherwise collect the recorded outputs, return
the first Abort error if one was hit, and otherwise pad with skip outputs
and pair with the per-transaction resolved delta writes (deltaWrites is
the delta resolver modelled from the spec: one resolved write list per
transaction). -/
def executeParallel (race : Bool)
    (statuses : Nat → ExecutionStatus (TOutput K V) (BlockError E))
    (numTxns : Nat) (deltaWrites : Nat → List (K × V)) (skipOut : TOutput K V) :
    Except (BlockError E) (List (TOutput K V) × List (List (K × V))) :=
  if numTxns = 0 then .ok ([], [])
  else if race then .error .modulePathReadWrite
  else
    match collectOutputs statuses numTxns 0 [] with
    | (some e, _) => .error e
    | (none, results) =>
        .ok (resizeTo numTxns skipOut results, (List.range numTxns).map deltaWrites)

/-- Modelled from the spec: the view new_btree_view hands the sequential
VM (view.rs, not under src/): the ordered data map first, the base view
for unknown keys. -/
def overlayView (base dataMap : K → Option V) : K → Option V :=
  fun k => match dataMap k with
    | some v => some v
    | none => base k

/-- Insert each write of an output into the ordered data map, in output
order (the write-application loop of execute_transactions_sequential). -/
def insertWrites [DecidableEq K] (dataMap : K → Option V) (ws : List (K × V)) :
    K → Option V :=
  ws.foldl (fun m p => fun k => if k = p.1 then some p.2 else m k) dataMap

/-- The VM contract for the sequential path: when materialize_deltas is
true the output's deltas are empty (Success and SkipRest cases). -/
def deltasFree : ExecutionStatus (TOutput K V) E → Prop
  | .success o => o.deltas = []
  | .skipRest o => o.deltas = []
  | .abort _ => True

/-- The loop of execute_transactions_sequential (executor.rs): run the VM
in block order against the overlay view with the materialize flag md,
panic (None) if a Success or SkipRest output carries deltas, apply its
writes to the data map immediately, stop after a SkipRest, and return
Err(UserError(e)) on Abort. -/
def seqLoop [DecidableEq K] (vm : T → (K → Option V) → Nat → Bool →
      ExecutionStatus (TOutput K V) E)
    (base : K → Option V) (md : Bool) :
    List T → Nat → (K → Option V) → List (TOutput K V) →
    Option (Except (BlockError E) (List (TOutput K V)))
  | [], _, _, acc => some (.ok acc)
  | t :: rest, idx, dataMap, acc =>
    match vm t (overlayView base dataMap) idx md with
    | .success output =>
        if output.deltas.length = 0 then
          seqLoop vm base md rest (idx + 1) (insertWrites dataMap output.writes)
            (acc ++ [output])
        else none
    | .skipRest output =>
        if output.deltas.length = 0 then
          some (.ok (acc ++ [output]))
        else none
    | .abort e => some (.error (.userError e))

/-- The panic-free counterpart of seqLoop: same control flow with the
materialize flag fixed to true and no delta check. -/
def seqSpec [DecidableEq K] (vm : T → (K → Option V) → Nat → Bool →
      ExecutionStatus (TOutput K V) E)
    (base : K → Option V) :
    List T → Nat → (K → Option V) → List (TOutput K V) →
    Except (BlockError E) (List (TOutput K V))
  | [], _, _, acc => .ok acc
  | t :: rest, idx, dataMap, acc =>
    match vm t (overlayView base dataMap) idx true with
    | .success output =>
        seqSpec vm base rest (idx + 1) (insertWrites dataMap output.writes)
          (acc ++ [output])
    | .skipRest output => .ok (acc ++ [output])
    | .abort e => .error (.userError e)

/-- execute_transactions_sequential (executor.rs): run the loop with
materialize_deltas = true from the empty data map, then resize the kept
outputs to the block length with the skip-output sentinel. None is a
panic (deltas in a sequential output). -/
def executeSequentialTxns [DecidableEq K]
    (vm : T → (K → Option V) → Nat → Bool → ExecutionStatus (TOutput K V) E)
    (block : List T) (base : K → Option V) (skipOut : TOutput K V) :
    Option (Except (BlockError E) (List (TOutput K V))) :=
  (seqLoop vm base true block 0 (fun _ => none) []).map fun r =>
    r.map fun ret => resizeTo block.length skipOut ret

/-- The sequential result in the shape execute_block uses: outputs paired
with empty resolved-delta lists (vec![Vec::new(); num_txns]). -/
def seqRunOf [DecidableEq K]
    (vm : T → (K → Option V) → Nat → Bool → ExecutionStatus (TOutput K V) E)
    (block : List T) (base : K → Option V) (skipOut : TOutput K V) :
    Option (Except (BlockError E) (List (TOutput K V) × List (List (K × V)))) :=
  (executeSequentialTxns vm block base skipOut).map fun r =>
    r.map fun results => (results, List.replicate block.length ([] : List (K × V)))

/-- The sequential-fallback test of execute_block (executor.rs): when the
first attempt ended in Err(ModulePathReadWrite), replace it with the
sequential re-run s; otherwise keep it. -/
def fallbackOn {A : Type} (s : Option (Except (BlockError E) A))
    (o : Option (Except (BlockError E) A)) : Option (Except (BlockError E) A) :=
  match o with
  | some (.error .modulePathReadWrite) => s
  | r => r

/-- BlockExecutor::execute_block (executor.rs): run parallel when
concurrency_level > 1 (its outcome determined by the race oracle, the
recorded statuses and the resolved delta writes), else sequential; if the
result is Err(ModulePathReadWrite), discard it and re-run sequentially;
finally zip outputs with their resolved delta writes. None is a
propagated panic from the sequential path. -/
def executeBlock [DecidableEq K] (concurrency : Nat) (race : Bool)
    (statuses : Nat → ExecutionStatus (TOutput K V) (BlockError E))
    (deltaWrites : Nat → List (K × V))
    (vm : T → (K → Option V) → Nat → Bool → ExecutionStatus (TOutput K V) E)
    (block : List T) (base : K → Option V) (skipOut : TOutput K V) :
    Option (Except (BlockError E) (List (TOutput K V × List (K × V)))) :=
  (fallbackOn (seqRunOf vm block base skipOut)
    (if concurrency > 1 then
      some (executeParallel race statuses block.length deltaWrites skipOut)
    else seqRunOf vm block base skipOut)).map
    fun r => r.map fun p => p.1.zip p.2

/- ---------------------------------------------------------------- -/
/- Theorems                                                          -/
/- ---------------------------------------------------------------- -/

theorem descriptorCheck_eq_specRuleMatches [DecidableEq H] (hash : V → H)
    (r : ReadDescriptor K H) (res : ReadOutcome V) :
    descriptorCheck hash r res = specRuleMatches hash r res := by
  rcases r with ⟨p, k⟩
  cases k <;> cases res <;> rfl

/-- C2: validate declares the recorded read set valid iff every recorded
descriptor matches a fresh read of its key under the stated rules; a
fresh read returning Dependency always fails its descriptor; a recorded
DeltaFailure descriptor validates exactly when the fresh read returns
DeltaApplicationFailure. -/
theorem validate_readset_semantics [DecidableEq H] (hash : V → H)
    (rs : List (ReadDescriptor K H)) (readFn : K → ReadOutcome V) :
    (readSetValid hash rs readFn = true ↔
      ∀ r ∈ rs, specRuleMatches hash r (readFn r.path) = true)
    ∧ (∀ (r : ReadDescriptor K H) (j : Nat) (res : ReadOutcome V),
        res = .dependency j → descriptorCheck hash r res = false)
    ∧ (∀ r : ReadDescriptor K H, r.kind = .deltaFailure →
        ∀ res : ReadOutcome V,
          (descriptorCheck hash r res = true ↔ res = .deltaApplicationFailure)) := by
  refine ⟨?_, ?_, ?_⟩
  · unfold readSetValid
    rw [List.all_eq_true]
    constructor
    · intro h r hr
      rw [← descriptorCheck_eq_specRuleMatches]
      exact h r hr
    · intro h r hr
      rw [descriptorCheck_eq_specRuleMatches]
      exact h r hr
  · intro r j res hres
    subst hres
    rfl
  · intro r hk res
    rcases r with ⟨p, k⟩
    simp only at hk
    subst hk
    cases res <;> simp [descriptorCheck, ReadDescriptor.validateVersion,
      ReadDescriptor.validateResolved, ReadDescriptor.validateUnresolved,
      ReadDescriptor.validateStorage, ReadDescriptor.validateDeltaFail]

theorem validate_readset_semantics_witness :
    descriptorCheck (fun v : Nat => v)
      (⟨0, .deltaFailure⟩ : ReadDescriptor Nat Nat) .deltaApplicationFailure = true :=
  ((validate_readset_semantics (fun v : Nat => v) [] (fun _ => .notFound)).2.2
    ⟨0, .deltaFailure⟩ rfl .deltaApplicationFailure).mpr rfl

/-- C7: validate mutates the data cache (marking the latest modified keys
of the transaction as Estimate and returning the finish_abort task) only
when the read set failed validation and try_abort succeeded; when the
read set validates, or when try_abort fails, it returns NoTask and leaves
the cache unchanged. -/
theorem validate_task_frame [DecidableEq K] [DecidableEq H] (hash : V → H)
    (readSet : List (ReadDescriptor K H)) (readFn : K → ReadOutcome V)
    (modifiedKeys : List K) (ver : Nat × Nat) (tryAbortOk : Bool)
    (mvds : MVDS K V) :
    ((readSetValid hash readSet readFn = true ∨ tryAbortOk = false) →
      validateTask hash readSet readFn modifiedKeys ver tryAbortOk mvds
        = (.noTask, mvds))
    ∧ (readSetValid hash readSet readFn = false → tryAbortOk = true →
      validateTask hash readSet readFn modifiedKeys ver tryAbortOk mvds
        = (.executionT (ver.1, ver.2 + 1) none,
            modifiedKeys.foldl (fun m k => m.markEstimate k ver.1) mvds)) := by
  constructor
  · intro h
    unfold validateTask
    rcases h with h | h <;> simp [h]
  · intro h1 h2
    unfold validateTask
    simp [h1, h2]

theorem validate_task_frame_witness :
    validateTask (fun v : Nat => v) ([] : List (ReadDescriptor Nat Nat))
      (fun _ => .notFound) ([] : List Nat) (0, 0) true
      ((fun _ _ => none) : MVDS Nat Nat)
      = (.noTask, (fun _ _ => none : MVDS Nat Nat)) :=
  (validate_task_frame (fun v : Nat => v) [] (fun _ => .notFound) [] (0, 0) true
    (fun _ _ => none)).1 (Or.inl rfl)

/-- C9: a worker that receives an ExecutionTask carrying a
dependency-resolution hook does not execute the transaction: it sets the
hook's flag, notifies the single waiter exactly once, leaves the data
cache and all recorded cells unchanged, and continues its loop with
NoTask. -/
theorem workstep_hook_signal [DecidableEq K] [DecidableEq H] (hash : V → H)
    (readFn : K → ReadOutcome V)
    (vmResult : Nat × Nat → ExecutionStatus (TOutput K V) E)
    (tryAbortOk : Bool) (schedNext : STask) (ver : Nat × Nat)
    (st : SharedState K V H E) :
    (workStep hash readFn vmResult tryAbortOk schedNext
        (.executionT ver (some ())) st).1 = .noTask
    ∧ (workStep hash readFn vmResult tryAbortOk schedNext
        (.executionT ver (some ())) st).2.cv.flag = true
    ∧ (workStep hash readFn vmResult tryAbortOk schedNext
        (.executionT ver (some ())) st).2.cv.notified = st.cv.notified + 1
    ∧ (workStep hash readFn vmResult tryAbortOk schedNext
        (.executionT ver (some ())) st).2.mvds = st.mvds
    ∧ (workStep hash readFn vmResult tryAbortOk schedNext
        (.executionT ver (some ())) st).2.modifiedKeys = st.modifiedKeys
    ∧ (workStep hash readFn vmResult tryAbortOk schedNext
        (.executionT ver (some ())) st).2.readSets = st.readSets
    ∧ (workStep hash readFn vmResult tryAbortOk schedNext
        (.executionT ver (some ())) st).2.recorded = st.recorded :=
  ⟨rfl, rfl, rfl, rfl, rfl, rfl, rfl⟩

theorem applyOne_prev [DecidableEq K] (ver : Nat × Nat) (st : ApplyState K V)
    (u : K × UpdateKind V) :
    (applyOne ver st u).prev
      = if u.1 ∈ st.prev then st.prev.erase u.1 else st.prev := by
  rcases u with ⟨k, uk⟩
  cases uk <;> by_cases h : k ∈ st.prev <;> simp [applyOne, h]

theorem applyOne_outside [DecidableEq K] (ver : Nat × Nat) (st : ApplyState K V)
    (u : K × UpdateKind V) :
    (applyOne ver st u).outside
      = if u.1 ∈ st.prev then st.outside else true := by
  rcases u with ⟨k, uk⟩
  cases uk <;> by_cases h : k ∈ st.prev <;> simp [applyOne, h]

theorem applyOne_mvds_ne [DecidableEq K] (ver : Nat × Nat) (st : ApplyState K V)
    (u : K × UpdateKind V) (k2 : K) (i2 : Nat) (h : k2 ≠ u.1) :
    (applyOne ver st u).mvds k2 i2 = st.mvds k2 i2 := by
  rcases u with ⟨k, uk⟩
  cases uk <;> by_cases hm : k ∈ st.prev <;>
    simp_all [applyOne, MVDS.addWrite, MVDS.addDelta]

theorem foldApply_mvds_ne [DecidableEq K] (ver : Nat × Nat)
    (us : List (K × UpdateKind V)) :
    ∀ (st : ApplyState K V) (k : K) (i2 : Nat), k ∉ us.map Prod.fst →
      ((us.foldl (applyOne ver) st).mvds k i2 = st.mvds k i2) := by
  induction us with
  | nil => intro st k i2 _; rfl
  | cons u rest ih =>
    intro st k i2 h
    simp only [List.map_cons, List.mem_cons, not_or] at h
    rw [List.foldl_cons, ih _ k i2 h.2, applyOne_mvds_ne _ _ _ _ _ h.1]

theorem foldApply_prev_subset [DecidableEq K] (ver : Nat × Nat)
    (us : List (K × UpdateKind V)) :
    ∀ (st : ApplyState K V) (k : K),
      k ∈ (us.foldl (applyOne ver) st).prev → k ∈ st.prev := by
  induction us with
  | nil => intro st k h; exact h
  | cons u rest ih =>
    intro st k h
    rw [List.foldl_cons] at h
    have h2 := ih _ k h
    rw [applyOne_prev] at h2
    by_cases hm : u.1 ∈ st.prev
    · rw [if_pos hm] at h2
      exact List.mem_of_mem_erase h2
    · rwa [if_neg hm] at h2

theorem foldApply_prev_mem [DecidableEq K] (ver : Nat × Nat)
    (us : List (K × UpdateKind V)) :
    ∀ (st : ApplyState K V) (k : K), k ∉ us.map Prod.fst →
      (k ∈ (us.foldl (applyOne ver) st).prev ↔ k ∈ st.prev) := by
  induction us with
  | nil => intro st k _; rfl
  | cons u rest ih =>
    intro st k h
    simp only [List.map_cons, List.mem_cons, not_or] at h
    rw [List.foldl_cons, ih _ k h.2, applyOne_prev]
    by_cases hm : u.1 ∈ st.prev
    · rw [if_pos hm]
      exact List.mem_erase_of_ne h.1
    · rw [if_neg hm]

theorem foldApply_prev_nodup [DecidableEq K] (ver : Nat × Nat)
    (us : List (K × UpdateKind V)) :
    ∀ (st : ApplyState K V), st.prev.Nodup →
      ((us.foldl (applyOne ver) st).prev).Nodup := by
  induction us with
  | nil => intro st h; exact h
  | cons u rest ih =>
    intro st h
    rw [List.foldl_cons]
    refine ih _ ?_
    rw [applyOne_prev]
    by_cases hm : u.1 ∈ st.prev
    · rw [if_pos hm]; exact h.erase u.1
    · rwa [if_neg hm]

theorem foldApply_prev_not_mem [DecidableEq K] (ver : Nat × Nat)
    (us : List (K × UpdateKind V)) :
    ∀ (st : ApplyState K V) (k : K), k ∈ us.map Prod.fst → st.prev.Nodup →
      k ∉ (us.foldl (applyOne ver) st).prev := by
  induction us with
  | nil => intro st k h _; simp at h
  | cons u rest ih =>
    intro st k h hnd
    rw [List.map_cons, List.mem_cons] at h
    rw [List.foldl_cons]
    rcases h with h | h
    · subst h
      intro hmem
      have h2 := foldApply_prev_subset ver rest _ _ hmem
      rw [applyOne_prev] at h2
      by_cases hm : u.1 ∈ st.prev
      · rw [if_pos hm] at h2
        rw [List.Nodup.mem_erase_iff hnd] at h2
        exact h2.1 rfl
      · rw [if_neg hm] at h2
        exact hm h2
    · refine ih _ k h ?_
      rw [applyOne_prev]
      by_cases hm : u.1 ∈ st.prev
      · rw [if_pos hm]; exact hnd.erase u.1
      · rwa [if_neg hm]

theorem list_any_ext {α : Type} (l : List α) (f g : α → Bool)
    (h : ∀ a ∈ l, f a = g a) : l.any f = l.any g := by
  induction l with
  | nil => rfl
  | cons a rest ih =>
    rw [List.any_cons, List.any_cons, h a (List.mem_cons_self a rest),
      ih fun b hb => h b (List.mem_cons_of_mem a hb)]

theorem foldApply_outside [DecidableEq K] (ver : Nat × Nat)
    (us : List (K × UpdateKind V)) :
    ∀ (st : ApplyState K V), (us.map Prod.fst).Nodup →
      (us.foldl (applyOne ver) st).outside
        = (st.outside || us.any fun u => !(decide (u.1 ∈ st.prev))) := by
  induction us with
  | nil => intro st _; simp
  | cons u rest ih =>
    intro st hnd
    rw [List.map_cons] at hnd
    have hu : u.1 ∉ rest.map Prod.fst := (List.nodup_cons.mp hnd).1
    have hnd2 : (rest.map Prod.fst).Nodup := (List.nodup_cons.mp hnd).2
    rw [List.foldl_cons, ih _ hnd2, List.any_cons]
    have hcong : rest.any (fun w => !(decide (w.1 ∈ (applyOne ver st u).prev)))
        = rest.any (fun w => !(decide (w.1 ∈ st.prev))) := by
      refine list_any_ext _ _ _ ?_
      intro w hw
      have hne : w.1 ≠ u.1 := by
        intro he
        exact hu (he ▸ List.mem_map_of_mem Prod.fst hw)
      rw [applyOne_prev]
      by_cases hm : u.1 ∈ st.prev
      · rw [if_pos hm]
        rw [decide_eq_decide.mpr (List.mem_erase_of_ne hne)]
      · rw [if_neg hm]
    rw [hcong, applyOne_outside]
    by_cases hm : u.1 ∈ st.prev
    · rw [if_pos hm]
      simp [hm]
    · rw [if_neg hm]
      simp [hm]

theorem foldApply_write_cell [DecidableEq K] (ver : Nat × Nat)
    (us : List (K × UpdateKind V)) :
    ∀ (st : ApplyState K V) (k : K) (v : V), (k, UpdateKind.writeVal v) ∈ us →
      (us.map Prod.fst).Nodup →
      (us.foldl (applyOne ver) st).mvds k ver.1
        = some ⟨.write ver.2 v, false⟩ := by
  induction us with
  | nil => intro st k v h _; simp at h
  | cons u rest ih =>
    intro st k v h hnd
    rw [List.map_cons] at hnd
    have hu : u.1 ∉ rest.map Prod.fst := (List.nodup_cons.mp hnd).1
    have hnd2 : (rest.map Prod.fst).Nodup := (List.nodup_cons.mp hnd).2
    rw [List.mem_cons] at h
    rw [List.foldl_cons]
    rcases h with h | h
    · subst h
      have hcell : (applyOne ver st (k, UpdateKind.writeVal v)).mvds k ver.1
          = some ⟨.write ver.2 v, false⟩ := by
        by_cases hm : k ∈ st.prev <;> simp [applyOne, hm, MVDS.addWrite]
      rw [foldApply_mvds_ne ver rest _ k ver.1 hu, hcell]
    · exact ih _ k v h hnd2

theorem foldApply_delta_cell [DecidableEq K] (ver : Nat × Nat)
    (us : List (K × UpdateKind V)) :
    ∀ (st : ApplyState K V) (k : K) (d : DeltaOp), (k, UpdateKind.deltaVal d) ∈ us →
      (us.map Prod.fst).Nodup →
      ∃ d2, (us.foldl (applyOne ver) st).mvds k ver.1
        = some ⟨.delta d2, false⟩ := by
  induction us with
  | nil => intro st k d h _; simp at h
  | cons u rest ih =>
    intro st k d h hnd
    rw [List.map_cons] at hnd
    have hu : u.1 ∉ rest.map Prod.fst := (List.nodup_cons.mp hnd).1
    have hnd2 : (rest.map Prod.fst).Nodup := (List.nodup_cons.mp hnd).2
    rw [List.mem_cons] at h
    rw [List.foldl_cons]
    rcases h with h | h
    · subst h
      rw [foldApply_mvds_ne ver rest _ k ver.1 hu]
      have hcell : (applyOne ver st (k, UpdateKind.deltaVal d)).mvds k ver.1
          = some ⟨.delta (match st.mvds k ver.1 with
              | some ⟨.delta d0, false⟩ => d0.compose d
              | _ => d), false⟩ := by
        by_cases hm : k ∈ st.prev <;> simp [applyOne, hm, MVDS.addDelta]
      exact ⟨_, hcell⟩
    · exact ih _ k d h hnd2

theorem foldDelete_cell [DecidableEq K] (i : Nat) (L : List K) :
    ∀ (m : MVDS K V) (k : K) (i2 : Nat),
      (L.foldl (fun m2 k2 => m2.delete k2 i) m) k i2
        = if k ∈ L ∧ i2 = i then none else m k i2 := by
  induction L with
  | nil => intro m k i2; simp
  | cons a L ih =>
    intro m k i2
    rw [List.foldl_cons, ih]
    by_cases h2 : i2 = i
    · by_cases hL : k ∈ L
      · simp [hL, h2]
      · by_cases ha : k = a <;> simp [MVDS.delete, hL, h2, ha]
    · simp [MVDS.delete, h2]

/-- C3 counterexample: with duplicate write keys in the output, the
wrote_outside flag is true even though every written key belongs to the
previous incarnation's modified-key set (prev.remove fails on the second
occurrence), so the claimed iff fails as stated. -/
theorem execute_task_outside_cex :
    (executeTask (0, 0)
      (.success ⟨[(0, 1), (0, 2)], []⟩ : ExecutionStatus (TOutput Nat Nat) Unit)
      [0] (fun _ _ => none)).updatesOutside = true
    ∧ ¬ ∃ k ∈ (updatesOf (⟨[(0, 1), (0, 2)], []⟩ : TOutput Nat Nat)).map Prod.fst,
        k ∉ ([0] : List Nat) := by
  exact ⟨rfl, by decide⟩

/-- C3 (amended with pairwise-distinct output keys): when an EXECUTE task
completes with Success or SkipRest and the output's written and delta
keys are pairwise distinct, every write of the output is in the data
cache at version (i, n) and every delta key holds a delta entry at index
i; wrote_outside is true iff some written or delta key was not in the
previous incarnation's modified-key set; and every key of the previous
set that the output did not write or delta is deleted at index i. -/
theorem execute_task_effects [DecidableEq K] (ver : Nat × Nat)
    (out : TOutput K V) (prev : List K) (mvds : MVDS K V)
    (res : ExecutionStatus (TOutput K V) E)
    (hres : res = .success out ∨ res = .skipRest out)
    (hkeys : ((updatesOf out).map Prod.fst).Nodup) (hprev : prev.Nodup)
    (r : ExecResult K V E) (hr : r = executeTask ver res prev mvds) :
    (∀ k v, (k, v) ∈ out.writes →
      r.mvds k ver.1 = some ⟨.write ver.2 v, false⟩)
    ∧ (∀ k d, (k, d) ∈ out.deltas →
      ∃ d2, r.mvds k ver.1 = some ⟨.delta d2, false⟩)
    ∧ (r.updatesOutside = true ↔
      ∃ k ∈ (updatesOf out).map Prod.fst, k ∉ prev)
    ∧ (∀ k ∈ prev, k ∉ (updatesOf out).map Prod.fst →
      r.mvds k ver.1 = none) := by
  have hmain : ∀ r2 : ExecResult K V E,
      r2.mvds = (applyUpdates ver out ⟨prev, false, mvds⟩).prev.foldl
        (fun m k => m.delete k ver.1)
        (applyUpdates ver out ⟨prev, false, mvds⟩).mvds →
      r2.updatesOutside = (applyUpdates ver out ⟨prev, false, mvds⟩).outside →
      (∀ k v, (k, v) ∈ out.writes →
        r2.mvds k ver.1 = some ⟨.write ver.2 v, false⟩)
      ∧ (∀ k d, (k, d) ∈ out.deltas →
        ∃ d2, r2.mvds k ver.1 = some ⟨.delta d2, false⟩)
      ∧ (r2.updatesOutside = true ↔
        ∃ k ∈ (updatesOf out).map Prod.fst, k ∉ prev)
      ∧ (∀ k ∈ prev, k ∉ (updatesOf out).map Prod.fst →
        r2.mvds k ver.1 = none) := by
    intro r2 hm ho
    have hA : applyUpdates ver out ⟨prev, false, mvds⟩
        = (updatesOf out).foldl (applyOne ver) ⟨prev, false, mvds⟩ := rfl
    refine ⟨?_, ?_, ?_, ?_⟩
    · intro k v hkv
      have hu : (k, UpdateKind.writeVal v) ∈ updatesOf out := by
        unfold updatesOf
        exact List.mem_append_left _ (List.mem_map_of_mem _ hkv)
      have hk : k ∈ (updatesOf out).map Prod.fst :=
        List.mem_map_of_mem Prod.fst hu
      have hnp : k ∉ (applyUpdates ver out ⟨prev, false, mvds⟩).prev := by
        rw [hA]
        exact foldApply_prev_not_mem ver (updatesOf out) _ k hk hprev
      rw [hm, foldDelete_cell, if_neg (fun hc => hnp hc.1), hA]
      exact foldApply_write_cell ver (updatesOf out) _ k v hu hkeys
    · intro k d hkd
      have hu : (k, UpdateKind.deltaVal d) ∈ updatesOf out := by
        unfold updatesOf
        exact List.mem_append_right _ (List.mem_map_of_mem _ hkd)
      have hk : k ∈ (updatesOf out).map Prod.fst :=
        List.mem_map_of_mem Prod.fst hu
      have hnp : k ∉ (applyUpdates ver out ⟨prev, false, mvds⟩).prev := by
        rw [hA]
        exact foldApply_prev_not_mem ver (updatesOf out) _ k hk hprev
      rw [hm, foldDelete_cell, if_neg (fun hc => hnp hc.1), hA]
      exact foldApply_delta_cell ver (updatesOf out) _ k d hu hkeys
    · rw [ho, hA, foldApply_outside ver (updatesOf out) _ hkeys]
      simp only [Bool.false_or, List.any_eq_true, Bool.not_eq_eq_eq_not,
        Bool.not_true, decide_eq_false_iff_not]
      constructor
      · rintro ⟨u, hu, hun⟩
        exact ⟨u.1, List.mem_map_of_mem Prod.fst hu, hun⟩
      · rintro ⟨k, hk, hkn⟩
        rcases List.mem_map.mp hk with ⟨u, hu, he⟩
        exact ⟨u, hu, he ▸ hkn⟩
    · intro k hk hnk
      have hp : k ∈ (applyUpdates ver out ⟨prev, false, mvds⟩).prev := by
        rw [hA, foldApply_prev_mem ver (updatesOf out) _ k hnk]
        exact hk
      rw [hm, foldDelete_cell, if_pos ⟨hp, rfl⟩]
  rcases hres with h | h <;> subst h <;> subst hr <;>
    exact hmain _ rfl rfl

theorem execute_task_effects_witness :
    (executeTask (0, 1)
      (.success ⟨[(0, 5)], []⟩ : ExecutionStatus (TOutput Nat Nat) Unit)
      [1] (fun _ _ => none)).mvds 0 0 = some ⟨.write 1 5, false⟩ :=
  (execute_task_effects (0, 1) ⟨[(0, 5)], []⟩ [1] (fun _ _ => none)
    (.success ⟨[(0, 5)], []⟩) (Or.inl rfl) (by decide) (by decide)
    _ rfl).1 0 5 (by decide)

/-- C10: when the VM returns Abort for the EXECUTE of (i, n), no write
and no delta is installed, every key of the previous incarnation's
modified set is deleted from the data cache at index i, every other cell
is untouched, and wrote_outside = false is reported. -/
theorem execute_task_abort_frame [DecidableEq K] (ver : Nat × Nat) (e : E)
    (prev : List K) (mvds : MVDS K V)
    (r : ExecResult K V E)
    (hr : r = executeTask ver (.abort e) prev mvds) :
    r.updatesOutside = false
    ∧ r.recorded = .abort (.userError e)
    ∧ (∀ k, k ∈ prev → r.mvds k ver.1 = none)
    ∧ (∀ k i2, k ∉ prev ∨ i2 ≠ ver.1 → r.mvds k i2 = mvds k i2) := by
  subst hr
  refine ⟨rfl, rfl, ?_, ?_⟩
  · intro k hk
    show (prev.foldl (fun m k2 => m.delete k2 ver.1) mvds) k ver.1 = none
    rw [foldDelete_cell, if_pos ⟨hk, rfl⟩]
  · intro k i2 h
    show (prev.foldl (fun m k2 => m.delete k2 ver.1) mvds) k i2 = mvds k i2
    rw [foldDelete_cell, if_neg ?_]
    rintro ⟨hk, hi⟩
    rcases h with h | h
    · exact h hk
    · exact h hi

theorem execute_task_abort_frame_witness :
    (executeTask (0, 0)
      (.abort () : ExecutionStatus (TOutput Nat Nat) Unit)
      [0] (fun _ _ => none)).mvds 0 0 = none :=
  (execute_task_abort_frame (0, 0) () [0] (fun _ _ => none)
    _ rfl).2.2.1 0 (by decide)

theorem seqLoop_error_userError [DecidableEq K]
    (vm : T → (K → Option V) → Nat → Bool → ExecutionStatus (TOutput K V) E)
    (base : K → Option V) (md : Bool) :
    ∀ (txns : List T) (idx : Nat) (dataMap : K → Option V)
      (acc : List (TOutput K V)) (err : BlockError E),
      seqLoop vm base md txns idx dataMap acc = some (.error err) →
      ∃ e, err = .userError e := by
  intro txns
  induction txns with
  | nil =>
    intro idx dataMap acc err h
    simp [seqLoop] at h
  | cons t rest ih =>
    intro idx dataMap acc err h
    rw [seqLoop] at h
    rcases hv : vm t (overlayView base dataMap) idx md with o | o | e <;>
      rw [hv] at h <;> dsimp only at h
    · by_cases hd : o.deltas.length = 0
      · rw [if_pos hd] at h
        exact ih _ _ _ _ h
      · rw [if_neg hd] at h
        simp at h
    · by_cases hd : o.deltas.length = 0
      · rw [if_pos hd] at h
        simp at h
      · rw [if_neg hd] at h
        simp at h
    · simp only [Option.some.injEq, Except.error.injEq] at h
      exact ⟨e, h.symm⟩

theorem seqRunOf_cases [DecidableEq K]
    (vm : T → (K → Option V) → Nat → Bool → ExecutionStatus (TOutput K V) E)
    (block : List T) (base : K → Option V) (skipOut : TOutput K V) :
    (∃ ret, seqLoop vm base true block 0 (fun _ => none) [] = some (.ok ret)
      ∧ seqRunOf vm block base skipOut
        = some (.ok (resizeTo block.length skipOut ret,
            List.replicate block.length [])))
    ∨ (∃ e, seqRunOf vm block base skipOut = some (.error (.userError e)))
    ∨ seqRunOf vm block base skipOut = none := by
  rcases hl : seqLoop vm base true block 0 (fun _ => none) [] with _ | r
  · right; right
    simp [seqRunOf, executeSequentialTxns, hl]
  · cases r with
    | ok ret =>
      left
      exact ⟨ret, rfl,
        by simp [seqRunOf, executeSequentialTxns, hl, Except.map]⟩
    | error err =>
      right; left
      obtain ⟨e, he⟩ := seqLoop_error_userError vm base true block 0 _ _ err hl
      subst he
      exact ⟨e, by simp [seqRunOf, executeSequentialTxns, hl, Except.map]⟩

theorem seqRunOf_ne_mprw [DecidableEq K]
    (vm : T → (K → Option V) → Nat → Bool → ExecutionStatus (TOutput K V) E)
    (block : List T) (base : K → Option V) (skipOut : TOutput K V) :
    seqRunOf vm block base skipOut
      ≠ some (.error (.modulePathReadWrite : BlockError E)) := by
  rcases seqRunOf_cases vm block base skipOut with ⟨ret, _, he⟩ | ⟨e, he⟩ | he <;>
    rw [he] <;> simp

theorem fallbackOn_self_or {A : Type}
    (s o : Option (Except (BlockError E) A)) :
    fallbackOn s o = s ∨ (fallbackOn s o = o
      ∧ o ≠ some (.error .modulePathReadWrite)) := by
  rcases o with _ | r
  · exact Or.inr ⟨rfl, by simp⟩
  · cases r with
    | ok a => exact Or.inr ⟨rfl, by simp⟩
    | error err =>
      cases err with
      | userError e => exact Or.inr ⟨rfl, by simp⟩
      | modulePathReadWrite => exact Or.inl rfl

theorem fallbackOn_mprw {A : Type} (s : Option (Except (BlockError E) A)) :
    fallbackOn s (some (.error .modulePathReadWrite)) = s := rfl

theorem length_resizeTo (n : Nat) (skip : TOutput K V)
    (l : List (TOutput K V)) : (resizeTo n skip l).length = n := by
  unfold resizeTo
  rw [List.length_append, List.length_take, List.length_replicate]
  omega

theorem resizeTo_getElem_pad (n : Nat) (skip : TOutput K V)
    (l : List (TOutput K V)) (j : Nat) (h1 : l.length ≤ j) (h2 : j < n) :
    (resizeTo n skip l)[j]? = some skip := by
  unfold resizeTo
  rw [List.getElem?_append_right (by rw [List.length_take]; omega)]
  rw [List.length_take, List.getElem?_replicate, if_pos (by omega)]

theorem zip_getElem_eq {A B : Type} :
    ∀ (l1 : List A) (l2 : List B) (j : Nat),
      (l1.zip l2)[j]? = l1[j]?.bind fun a => l2[j]?.map fun b => (a, b) := by
  intro l1
  induction l1 with
  | nil => intro l2 j; simp
  | cons a l1 ih =>
    intro l2 j
    cases l2 with
    | nil => simp
    | cons b l2 =>
      cases j with
      | zero => simp [List.zip_cons_cons]
      | succ j => simpa [List.zip_cons_cons] using ih l2 j

theorem collect_abort_result
    (statuses : Nat → ExecutionStatus (TOutput K V) (BlockError E))
    (err : BlockError E) :
    ∀ (i fuel idx : Nat) (acc : List (TOutput K V)), i < fuel →
      (∀ j, j < i → ∃ o, statuses (idx + j) = .success o) →
      statuses (idx + i) = .abort err →
      (collectOutputs statuses fuel idx acc).1 = some err := by
  intro i
  induction i with
  | zero =>
    intro fuel idx acc hfuel _ hab
    cases fuel with
    | zero => omega
    | succ f =>
      rw [Nat.add_zero] at hab
      simp [collectOutputs, hab]
  | succ i ih =>
    intro fuel idx acc hfuel hsucc hab
    cases fuel with
    | zero => omega
    | succ f =>
      obtain ⟨o, ho⟩ := hsucc 0 (Nat.succ_pos i)
      rw [Nat.add_zero] at ho
      have hstep : ∀ j, j < i → ∃ o2, statuses (idx + 1 + j) = .success o2 := by
        intro j hj
        obtain ⟨o2, ho2⟩ := hsucc (j + 1) (by omega)
        exact ⟨o2, by rw [show idx + 1 + j = idx + (j + 1) by omega]; exact ho2⟩
      have hab2 : statuses (idx + 1 + i) = .abort err := by
        rw [show idx + 1 + i = idx + (i + 1) by omega]
        exact hab
      have := ih f (idx + 1) (acc ++ [o]) (by omega) hstep hab2
      simpa [collectOutputs, ho] using this

theorem collect_skip_result
    (statuses : Nat → ExecutionStatus (TOutput K V) (BlockError E))
    (o0 : TOutput K V) :
    ∀ (i fuel idx : Nat) (acc : List (TOutput K V)), i < fuel →
      (∀ j, j < i → ∃ o, statuses (idx + j) = .success o) →
      statuses (idx + i) = .skipRest o0 →
      ∃ outs, collectOutputs statuses fuel idx acc = (none, outs)
        ∧ outs.length = acc.length + i + 1 := by
  intro i
  induction i with
  | zero =>
    intro fuel idx acc hfuel _ hsk
    cases fuel with
    | zero => omega
    | succ f =>
      rw [Nat.add_zero] at hsk
      exact ⟨acc ++ [o0], by simp [collectOutputs, hsk], by simp⟩
  | succ i ih =>
    intro fuel idx acc hfuel hsucc hsk
    cases fuel with
    | zero => omega
    | succ f =>
      obtain ⟨o, ho⟩ := hsucc 0 (Nat.succ_pos i)
      rw [Nat.add_zero] at ho
      have hstep : ∀ j, j < i → ∃ o2, statuses (idx + 1 + j) = .success o2 := by
        intro j hj
        obtain ⟨o2, ho2⟩ := hsucc (j + 1) (by omega)
        exact ⟨o2, by rw [show idx + 1 + j = idx + (j + 1) by omega]; exact ho2⟩
      have hsk2 : statuses (idx + 1 + i) = .skipRest o0 := by
        rw [show idx + 1 + i = idx + (i + 1) by omega]
        exact hsk
      obtain ⟨outs, hc, hlen⟩ := ih f (idx + 1) (acc ++ [o]) (by omega) hstep hsk2
      refine ⟨outs, ?_, ?_⟩
      · simp [collectOutputs, ho, hc]
      · rw [hlen, List.length_append]
        simp
        omega

theorem executeParallel_ok_len (race : Bool)
    (statuses : Nat → ExecutionStatus (TOutput K V) (BlockError E))
    (numTxns : Nat) (deltaWrites : Nat → List (K × V)) (skipOut : TOutput K V)
    (p : List (TOutput K V) × List (List (K × V)))
    (h : executeParallel race statuses numTxns deltaWrites skipOut = .ok p) :
    p.1.length = numTxns ∧ p.2.length = numTxns := by
  unfold executeParallel at h
  by_cases h0 : numTxns = 0
  · rw [if_pos h0] at h
    simp only [Except.ok.injEq] at h
    rw [← h, h0]
    exact ⟨rfl, rfl⟩
  · rw [if_neg h0] at h
    cases race with
    | true => simp at h
    | false =>
      simp only [Bool.false_eq_true, if_false] at h
      rcases hc : collectOutputs statuses numTxns 0 [] with ⟨me, results⟩
      rw [hc] at h
      cases me with
      | some e => simp at h
      | none =>
        simp only [Except.ok.injEq] at h
        rw [← h]
        constructor
        · exact length_resizeTo numTxns skipOut results
        · rw [List.length_map, List.length_range]

theorem seqRunOf_ok_len [DecidableEq K]
    (vm : T → (K → Option V) → Nat → Bool → ExecutionStatus (TOutput K V) E)
    (block : List T) (base : K → Option V) (skipOut : TOutput K V)
    (p : List (TOutput K V) × List (List (K × V)))
    (h : seqRunOf vm block base skipOut = some (.ok p)) :
    p.1.length = block.length ∧ p.2.length = block.length := by
  rcases seqRunOf_cases vm block base skipOut with ⟨ret, _, he⟩ | ⟨e, he⟩ | he <;>
    rw [he] at h
  · simp only [Option.some.injEq, Except.ok.injEq] at h
    rw [← h]
    exact ⟨length_resizeTo _ _ _, by simp⟩
  · simp at h
  · simp at h

/-- C4: when the parallel run of a nonempty block detects a module-key
read/write race, execute_block discards the parallel results and returns
the sequential re-run's result; and the ModulePathReadWrite error is
never returned to the caller of execute_block. -/
theorem execute_block_module_fallback [DecidableEq K] (concurrency : Nat)
    (race : Bool)
    (statuses : Nat → ExecutionStatus (TOutput K V) (BlockError E))
    (deltaWrites : Nat → List (K × V))
    (vm : T → (K → Option V) → Nat → Bool → ExecutionStatus (TOutput K V) E)
    (block : List T) (base : K → Option V) (skipOut : TOutput K V) :
    (concurrency > 1 → race = true → block.length ≠ 0 →
      executeBlock concurrency race statuses deltaWrites vm block base skipOut
        = (seqRunOf vm block base skipOut).map fun r =>
            r.map fun p => p.1.zip p.2)
    ∧ executeBlock concurrency race statuses deltaWrites vm block base skipOut
        ≠ some (.error .modulePathReadWrite) := by
  constructor
  · intro hc hrace hlen
    have hpar : executeParallel race statuses block.length deltaWrites skipOut
        = (.error .modulePathReadWrite : Except (BlockError E)
            (List (TOutput K V) × List (List (K × V)))) := by
      unfold executeParallel
      rw [if_neg hlen, hrace]
      simp
    unfold executeBlock
    rw [if_pos hc, hpar, fallbackOn_mprw]
  · intro hcon
    unfold executeBlock at hcon
    rcases hfo : fallbackOn (seqRunOf vm block base skipOut)
        (if concurrency > 1 then
          some (executeParallel race statuses block.length deltaWrites skipOut)
        else seqRunOf vm block base skipOut) with _ | r
    · rw [hfo] at hcon
      simp at hcon
    · rw [hfo] at hcon
      simp only [Option.map_some', Option.some.injEq] at hcon
      have hrerr : r = .error .modulePathReadWrite := by
        cases r with
        | ok p => simp [Except.map] at hcon
        | error e =>
          simp only [Except.map] at hcon
          rw [Except.error.inj hcon]
      rw [hrerr] at hfo
      rcases fallbackOn_self_or (seqRunOf vm block base skipOut)
          (if concurrency > 1 then
            some (executeParallel race statuses block.length deltaWrites skipOut)
          else seqRunOf vm block base skipOut) with hf | ⟨hf, hne⟩ <;>
        rw [hf] at hfo
      · exact seqRunOf_ne_mprw vm block base skipOut hfo
      · exact hne hfo

theorem execute_block_module_fallback_witness :
    executeBlock 2 true
      (fun _ => .success ⟨[], []⟩) (fun _ => [])
      (fun _ _ _ _ => .success ⟨[], []⟩) [()] (fun _ => none) ⟨[], []⟩
      = (seqRunOf (fun _ _ _ _ =>
            (.success ⟨[], []⟩ : ExecutionStatus (TOutput Nat Nat) Nat))
          [()] (fun _ => none) ⟨[], []⟩).map
          fun r => r.map fun p => p.1.zip p.2 :=
  (@execute_block_module_fallback Nat Nat Nat Unit _ 2 true
    (fun _ => .success ⟨[], []⟩) (fun _ => [])
    (fun _ _ _ _ => .success ⟨[], []⟩) [()] (fun _ => none) ⟨[], []⟩).1
    (by omega) rfl (by decide)

/-- C5: at the first index whose recorded status is an Abort (all earlier
statuses being successes) the executor stops and returns
Err(UserError(e)) as the block result, discarding earlier successful
outputs: in the parallel collection phase, and in the sequential loop at
the transaction whose VM run aborts (the accumulated outputs acc are
dropped). -/
theorem first_abort_propagates [DecidableEq K] :
    (∀ (statuses : Nat → ExecutionStatus (TOutput K V) (BlockError E))
      (numTxns i : Nat) (e0 : E) (deltaWrites : Nat → List (K × V))
      (skipOut : TOutput K V),
      i < numTxns →
      (∀ j, j < i → ∃ o, statuses j = .success o) →
      statuses i = .abort (.userError e0) →
      executeParallel false statuses numTxns deltaWrites skipOut
        = .error (.userError e0))
    ∧ (∀ (vm : T → (K → Option V) → Nat → Bool →
          ExecutionStatus (TOutput K V) E)
      (base dataMap : K → Option V) (t : T) (rest : List T) (idx : Nat)
      (acc : List (TOutput K V)) (e : E),
      vm t (overlayView base dataMap) idx true = .abort e →
      seqLoop vm base true (t :: rest) idx dataMap acc
        = some (.error (.userError e))) := by
  constructor
  · intro statuses numTxns i e0 deltaWrites skipOut hi hpre hab
    have h1 := collect_abort_result statuses (.userError e0) i numTxns 0 [] hi
      (by intro j hj; simpa using hpre j hj) (by simpa using hab)
    unfold executeParallel
    rw [if_neg (by omega)]
    simp only [Bool.false_eq_true, if_false]
    rcases hc : collectOutputs statuses numTxns 0 [] with ⟨me, results⟩
    rw [hc] at h1
    simp only at h1
    rw [h1]
  · intro vm base dataMap t rest idx acc e hab
    rw [seqLoop, hab]

theorem first_abort_propagates_witness :
    executeParallel false (fun _ => .abort (.userError 7)) 1 (fun _ => [])
      (⟨[], []⟩ : TOutput Nat Nat) = .error (.userError 7) :=
  (@first_abort_propagates Nat Nat Nat Unit _).1
    (fun _ => .abort (.userError 7)) 1 0 7 (fun _ => []) ⟨[], []⟩
    (by omega) (fun j hj => absurd hj (by omega)) rfl

/-- C6: when execute_block returns Ok the result has the same length as
the input block; an empty block yields the empty result; and after a
SkipRest status all later positions, up to the block length, hold the
skip-output sentinel (in the parallel collection and in the sequential
resize). -/
theorem block_output_shape [DecidableEq K]
    (vm : T → (K → Option V) → Nat → Bool → ExecutionStatus (TOutput K V) E)
    (base : K → Option V) (skipOut : TOutput K V) :
    (∀ (concurrency : Nat) (race : Bool)
      (statuses : Nat → ExecutionStatus (TOutput K V) (BlockError E))
      (deltaWrites : Nat → List (K × V)) (block : List T)
      (rs : List (TOutput K V × List (K × V))),
      executeBlock concurrency race statuses deltaWrites vm block base skipOut
        = some (.ok rs) → rs.length = block.length)
    ∧ (∀ (concurrency : Nat) (race : Bool)
      (statuses : Nat → ExecutionStatus (TOutput K V) (BlockError E))
      (deltaWrites : Nat → List (K × V)),
      executeBlock concurrency race statuses deltaWrites vm ([] : List T)
        base skipOut = some (.ok []))
    ∧ (∀ (concurrency : Nat)
      (statuses : Nat → ExecutionStatus (TOutput K V) (BlockError E))
      (deltaWrites : Nat → List (K × V)) (block : List T) (i : Nat)
      (o0 : TOutput K V),
      concurrency > 1 → i < block.length →
      (∀ j, j < i → ∃ o, statuses j = .success o) →
      statuses i = .skipRest o0 →
      ∃ rs, executeBlock concurrency false statuses deltaWrites vm block
          base skipOut = some (.ok rs)
        ∧ rs.length = block.length
        ∧ ∀ j, i < j → j < block.length → ∃ dw, rs[j]? = some (skipOut, dw))
    ∧ (∀ (block : List T) (ret : List (TOutput K V)),
      seqLoop vm base true block 0 (fun _ => none) [] = some (.ok ret) →
      executeSequentialTxns vm block base skipOut
          = some (.ok (resizeTo block.length skipOut ret))
        ∧ ∀ j, ret.length ≤ j → j < block.length →
          (resizeTo block.length skipOut ret)[j]? = some skipOut) := by
  refine ⟨?_, ?_, ?_, ?_⟩
  · intro concurrency race statuses deltaWrites block rs hok
    unfold executeBlock at hok
    rcases hfo : fallbackOn (seqRunOf vm block base skipOut)
        (if concurrency > 1 then
          some (executeParallel race statuses block.length deltaWrites skipOut)
        else seqRunOf vm block base skipOut) with _ | r
    · rw [hfo] at hok
      simp at hok
    · rw [hfo] at hok
      simp only [Option.map_some', Option.some.injEq] at hok
      obtain ⟨p, hp, hzip⟩ : ∃ p, r = .ok p ∧ p.1.zip p.2 = rs := by
        cases r with
        | ok p =>
          simp only [Except.map] at hok
          exact ⟨p, rfl, Except.ok.inj hok⟩
        | error e => simp [Except.map] at hok
      rw [hp] at hfo
      have hlen : p.1.length = block.length ∧ p.2.length = block.length := by
        rcases fallbackOn_self_or (seqRunOf vm block base skipOut)
            (if concurrency > 1 then
              some (executeParallel race statuses block.length deltaWrites skipOut)
            else seqRunOf vm block base skipOut) with hf | ⟨hf, _⟩ <;>
          rw [hf] at hfo
        · exact seqRunOf_ok_len vm block base skipOut p hfo
        · by_cases hcc : concurrency > 1
          · rw [if_pos hcc] at hfo
            refine executeParallel_ok_len race statuses block.length
              deltaWrites skipOut p ?_
            injection hfo
          · rw [if_neg hcc] at hfo
            exact seqRunOf_ok_len vm block base skipOut p hfo
      rw [← hzip, List.length_zip, hlen.1, hlen.2]
      exact min_self _
  · intro concurrency race statuses deltaWrites
    unfold executeBlock
    by_cases hcc : concurrency > 1
    · rw [if_pos hcc]
      rfl
    · rw [if_neg hcc]
      rfl
  · intro concurrency statuses deltaWrites block i o0 hcc hi hpre hsk
    obtain ⟨outs, hcoll, hlen⟩ := collect_skip_result statuses o0 i
      block.length 0 [] hi
      (by intro j hj; simpa using hpre j hj) (by simpa using hsk)
    have hpar : executeParallel false statuses block.length deltaWrites skipOut
        = .ok (resizeTo block.length skipOut outs,
            (List.range block.length).map deltaWrites) := by
      unfold executeParallel
      rw [if_neg (by omega)]
      simp only [Bool.false_eq_true, if_false]
      rw [hcoll]
    refine ⟨(resizeTo block.length skipOut outs).zip
        ((List.range block.length).map deltaWrites), ?_, ?_, ?_⟩
    · unfold executeBlock
      rw [if_pos hcc, hpar]
      rfl
    · rw [List.length_zip, length_resizeTo, List.length_map, List.length_range]
      exact min_self _
    · intro j hij hjlen
      refine ⟨deltaWrites j, ?_⟩
      rw [zip_getElem_eq,
        resizeTo_getElem_pad _ _ _ _ (by simp at hlen; omega) hjlen,
        List.getElem?_map, List.getElem?_range hjlen]
      rfl
  · intro block ret hl
    constructor
    · unfold executeSequentialTxns
      rw [hl]
      rfl
    · intro j h1 h2
      exact resizeTo_getElem_pad _ _ _ _ h1 h2

theorem block_output_shape_witness :
    (resizeTo 2 (⟨[(9, 9)], []⟩ : TOutput Nat Nat) [⟨[], []⟩])[1]?
      = some ⟨[(9, 9)], []⟩ :=
  ((@block_output_shape Nat Nat Nat Unit _
    (fun _ _ _ _ => .skipRest ⟨[], []⟩) (fun _ => none)
    ⟨[(9, 9)], []⟩).2.2.2 [(), ()] [⟨[], []⟩] rfl).2 1 (by decide) (by decide)

/-- C8: the sequential path runs the VM with materialize_deltas = true
and applies Success or SkipRest writes immediately to the data map in
block order; under the VM contract that such outputs carry no deltas,
the panic branch is unreachable: the loop (and the whole sequential
execution) equals its panic-free counterpart. -/
theorem sequential_no_panic [DecidableEq K]
    (vm : T → (K → Option V) → Nat → Bool → ExecutionStatus (TOutput K V) E)
    (base : K → Option V)
    (h : ∀ (t : T) (view : K → Option V) (i : Nat),
      deltasFree (vm t view i true)) :
    (∀ (txns : List T) (idx : Nat) (dataMap : K → Option V)
      (acc : List (TOutput K V)),
      seqLoop vm base true txns idx dataMap acc
        = some (seqSpec vm base txns idx dataMap acc))
    ∧ ∀ (block : List T) (skipOut : TOutput K V),
      executeSequentialTxns vm block base skipOut
        = some ((seqSpec vm base block 0 (fun _ => none) []).map
            fun ret => resizeTo block.length skipOut ret) := by
  have hloop : ∀ (txns : List T) (idx : Nat) (dataMap : K → Option V)
      (acc : List (TOutput K V)),
      seqLoop vm base true txns idx dataMap acc
        = some (seqSpec vm base txns idx dataMap acc) := by
    intro txns
    induction txns with
    | nil => intro idx dataMap acc; rfl
    | cons t rest ih =>
      intro idx dataMap acc
      rw [seqLoop, seqSpec]
      have hd := h t (overlayView base dataMap) idx
      rcases hv : vm t (overlayView base dataMap) idx true with o | o | e
      · rw [hv] at hd
        have hd2 : o.deltas = [] := hd
        dsimp only
        rw [if_pos (by rw [hd2]; rfl)]
        exact ih (idx + 1) (insertWrites dataMap o.writes) (acc ++ [o])
      · rw [hv] at hd
        have hd2 : o.deltas = [] := hd
        dsimp only
        rw [if_pos (by rw [hd2]; rfl)]
      · rfl
  refine ⟨hloop, ?_⟩
  intro block skipOut
  unfold executeSequentialTxns
  rw [hloop block 0 (fun _ => none) []]
  rfl

theorem sequential_no_panic_witness :
    seqLoop (fun _ _ _ _ =>
        (.success ⟨[], []⟩ : ExecutionStatus (TOutput Nat Nat) Nat))
      (fun _ => none) true [()] 0 (fun _ => none) []
      = some (seqSpec (fun _ _ _ _ => .success ⟨[], []⟩) (fun _ => none)
          [()] 0 (fun _ => none) []) :=
  (sequential_no_panic (fun _ _ _ _ =>
      (.success ⟨[], []⟩ : ExecutionStatus (TOutput Nat Nat) Nat))
    (fun _ => none) (fun _ _ _ => rfl)).1 [()] 0 (fun _ => none) []

end BlockExec
